import Mathlib

/-!
Verification development for the json-search repository.

The embedding follows `src/search.rs` (the engine: `Database` with `add`,
`tokenize_entries`, `get_tf`, `get_idf`, `calculate_tf_idf`, `search`).
`serde_json::Value` is embedded as the inductive `Json`; Rust `HashMap`s are
embedded as association lists whose list order stands for the map's
(unspecified) iteration order; `f32` scores are embedded as `FVal`
(NaN, the two infinities, and finite values idealized as exact reals —
rounding is not modelled, the special values the claims talk about are).
`std::time::Instant` is embedded as a natural-number timestamp passed to
`search` explicitly.

The repository's `tokenizer` module (`tokenizer::Lexer`) is not under `src/`;
it is modelled from the spec, see `lexTokens`.
-/

/-- ASCII uppercasing of a single character, as Rust `u8::to_ascii_uppercase`
applied characterwise by `str::to_ascii_uppercase`. -/
def asciiUpperChar (c : Char) : Char :=
  if 'a' ≤ c ∧ c ≤ 'z' then Char.ofNat (c.toNat - 32) else c

/-- ASCII uppercasing of a string, as Rust `str::to_ascii_uppercase`. -/
def asciiUpper (s : String) : String := String.mk (s.data.map asciiUpperChar)

/-- Helper for `lexTokens`: scans the character list, accumulating the current
run of word-constituent characters (reversed) in `acc`. -/
def lexAux : List Char → List Char → List String
  | [], acc => if acc.isEmpty then [] else [String.mk acc.reverse]
  | c :: rest, acc =>
    if c.isAlphanum then lexAux rest (c :: acc)
    else if acc.isEmpty then lexAux rest []
    else String.mk acc.reverse :: lexAux rest []

/-- Modelled from the spec: the repository's `tokenizer` module
(`tokenizer::Lexer`, used at src/search.rs:120 and src/search.rs:186) is not
under `src/`. Spec section 4.1: the output is the finite, order-preserving
sequence of maximal contiguous runs of word-constituent characters
(letters/digits), with run boundaries at whitespace and punctuation;
delimiter characters are discarded; case is preserved by the tokenizer
itself (uppercasing is applied by the caller). -/
def lexTokens (s : String) : List String := lexAux s.data []

/-- Decimal digit character, `48 + d` is the ASCII code of the digit `d`. -/
def digitChar (d : Nat) : Char := Char.ofNat (48 + d)

/-- Helper for `natRepr`; the first argument is fuel (`n + 1` is always
enough since the value shrinks by a factor of ten each step). -/
def natDigitsAux : Nat → Nat → List Char
  | 0, _ => []
  | fuel + 1, n =>
    if n < 10 then [digitChar n] else natDigitsAux fuel (n / 10) ++ [digitChar (n % 10)]

/-- Decimal rendering of an unsigned integer, as Rust `u64`'s `Display`
(which is what `serde_json::Number::to_string` produces for an unsigned
integer number). -/
def natRepr (n : Nat) : String := String.mk (natDigitsAux (n + 1) n)

/-- The payload of a `serde_json::Number`: either an unsigned integer (the
only case `as_u64` accepts) or some other number kept as its rendered text. -/
inductive JNum where
  | uInt (n : Nat)
  | other (text : String)
deriving DecidableEq

/-- Rendered text of a number, as `serde_json::Number::to_string`. -/
def JNum.text : JNum → String
  | .uInt n => natRepr n
  | .other t => t

/-- The `serde_json::Number::as_u64` accessor. -/
def JNum.asU64 : JNum → Option Nat
  | .uInt n => some n
  | .other _ => none

/-- The `serde_json::Value` document tree. -/
inductive Json where
  | obj (fields : List (String × Json))
  | arr (elems : List Json)
  | str (s : String)
  | num (n : JNum)
  | bool (b : Bool)
  | null

/-- First value stored under a key, as `serde_json::Map::get` (the map never
holds duplicate keys in serde_json; list order stands for its iteration
order). -/
def assocFind : List (String × Json) → String → Option Json
  | [], _ => none
  | (k, v) :: rest, key => if k = key then some v else assocFind rest key

/-- The `serde_json::Value::get` accessor: field lookup on objects, `None` on
every other shape. -/
def jsonGet : Json → String → Option Json
  | .obj fields, key => assocFind fields key
  | _, _ => none

/-- The `serde_json::Value::as_u64` accessor. -/
def Json.asU64 : Json → Option Nat
  | .num n => n.asU64
  | _ => none

mutual

/-- The flattener `Database::get_tokens` (src/search.rs:84-111): an object
contributes the fragments of each of its values in iteration order (keys are
dropped), an array the fragments of each element in order, a string itself
verbatim, a number or boolean its rendered text, and `Null` yields `None`;
a `None` child contributes nothing to its parent (the `None => {}` arm). -/
def get_tokens : Json → Option (List String)
  | .obj fields => some (getTokensKVs fields)
  | .arr elems => some (getTokensList elems)
  | .str s => some [s]
  | .num n => some [n.text]
  | .bool b => some [if b then "true" else "false"]
  | .null => none

/-- Fragment concatenation over an object's fields (src/search.rs:86-95). -/
def getTokensKVs : List (String × Json) → List String
  | [] => []
  | (_, v) :: rest => ((get_tokens v).getD []) ++ getTokensKVs rest

/-- Fragment concatenation over an array's elements (src/search.rs:96-105). -/
def getTokensList : List Json → List String
  | [] => []
  | v :: rest => ((get_tokens v).getD []) ++ getTokensList rest

end

/-- One step of the term-frequency counting loop (src/search.rs:143-146):
`*tf.entry(token).or_insert(0) += 1` on an association-list table. -/
def bumpCount : List (String × Nat) → String → List (String × Nat)
  | [], tok => [(tok, 1)]
  | (t, c) :: rest, tok =>
    if t = tok then (t, c + 1) :: rest else (t, c) :: bumpCount rest tok

/-- The term→count table built from a token list (src/search.rs:142-146). -/
def buildTable (toks : List String) : List (String × Nat) :=
  toks.foldl bumpCount []

/-- Count stored for a token, 0 when absent: `.get(token).unwrap_or(&0)`
(src/search.rs:154). -/
def countOf : List (String × Nat) → String → Nat
  | [], _ => 0
  | (t, c) :: rest, tok => if t = tok then c else countOf rest tok

/-- Sum of all stored counts: `.values().sum::<u32>()` (src/search.rs:155). -/
def sumTbl : List (String × Nat) → Nat
  | [] => 0
  | (_, c) :: rest => c + sumTbl rest

/-- Key membership in a table: `.contains_key(token)` (src/search.rs:165). -/
def containsTok : List (String × Nat) → String → Bool
  | [], _ => false
  | (t, _) :: rest, tok => t = tok || containsTok rest tok

/-- Association-list lookup for the `HashMap<u32, _>` fields. -/
def lookupNat {α : Type} : List (Nat × α) → Nat → Option α
  | [], _ => none
  | (k, v) :: rest, key => if k = key then some v else lookupNat rest key

/-- Association-list insert-or-replace for the `HashMap<u32, _>` fields. -/
def insertNat {α : Type} : List (Nat × α) → Nat → α → List (Nat × α)
  | [], key, v => [(key, v)]
  | (k, w) :: rest, key, v =>
    if k = key then (k, v) :: rest else (k, w) :: insertNat rest key v

/-- Association-list lookup for the `HashMap<String, _>` cache. -/
def lookupStr {α : Type} : List (String × α) → String → Option α
  | [], _ => none
  | (k, v) :: rest, key => if k = key then some v else lookupStr rest key

/-- Association-list insert-or-replace for the `HashMap<String, _>` cache. -/
def insertStr {α : Type} : List (String × α) → String → α → List (String × α)
  | [], key, v => [(key, v)]
  | (k, w) :: rest, key, v =>
    if k = key then (k, v) :: rest else (k, w) :: insertStr rest key v

/-- Scores as IEEE 754 `f32` values: NaN, the infinities, and finite values
(idealized as exact reals; `f32` rounding and overflow are not modelled, the
special values relevant to the claims are). -/
inductive FVal where
  | nan
  | pinf
  | ninf
  | fin (x : ℝ)

/-- Division of two nonnegative counts `top as f32 / bottom as f32`
(src/search.rs:157): IEEE gives NaN for 0/0 and +inf for positive/0. -/
noncomputable def fdivNat (a b : Nat) : FVal :=
  if b = 0 then (if a = 0 then .nan else .pinf) else .fin ((a : ℝ) / (b : ℝ))

/-- IEEE multiplication on `FVal` (`tf * idf`, src/search.rs:176): NaN is
absorbing, zero times an infinity is NaN. -/
noncomputable def fmul : FVal → FVal → FVal
  | .nan, _ => .nan
  | _, .nan => .nan
  | .fin x, .fin y => .fin (x * y)
  | .fin x, .pinf => if 0 < x then .pinf else if x < 0 then .ninf else .nan
  | .fin x, .ninf => if 0 < x then .ninf else if x < 0 then .pinf else .nan
  | .pinf, .fin y => if 0 < y then .pinf else if y < 0 then .ninf else .nan
  | .ninf, .fin y => if 0 < y then .ninf else if y < 0 then .pinf else .nan
  | .pinf, .pinf => .pinf
  | .pinf, .ninf => .ninf
  | .ninf, .pinf => .ninf
  | .ninf, .ninf => .pinf

/-- IEEE addition on `FVal` (the `.sum::<f32>()` fold, src/search.rs:202):
NaN is absorbing, opposite infinities give NaN. -/
noncomputable def fadd : FVal → FVal → FVal
  | .nan, _ => .nan
  | _, .nan => .nan
  | .fin x, .fin y => .fin (x + y)
  | .pinf, .ninf => .nan
  | .ninf, .pinf => .nan
  | .pinf, _ => .pinf
  | _, .pinf => .pinf
  | .ninf, _ => .ninf
  | _, .ninf => .ninf

/-- The filter predicate `*score > 0.0` (src/search.rs:205). Note NaN > 0.0
is false in IEEE comparison, so NaN scores are dropped by the filter. -/
noncomputable def fgt0 : FVal → Bool
  | .nan => false
  | .pinf => true
  | .ninf => false
  | .fin x => decide (0 < x)

/-- IEEE `f32::partial_cmp` (src/search.rs:207): `None` exactly when either
side is NaN — the `unwrap` there panics in that case. -/
noncomputable def fcmp : FVal → FVal → Option Ordering
  | .nan, _ => none
  | _, .nan => none
  | .fin x, .fin y => some (cmp x y)
  | .pinf, .pinf => some .eq
  | .ninf, .ninf => some .eq
  | .pinf, _ => some .gt
  | _, .pinf => some .lt
  | .ninf, _ => some .lt
  | _, .ninf => some .gt

/-- The `CachedResult` struct (src/search.rs:54-58); the expiration instant
is a natural-number timestamp. -/
structure CachedResult where
  result : List (Json × FVal)
  expiration : Nat

/-- The `Database` struct (src/search.rs:60-68). Each `HashMap` is embedded
as an association list whose order stands for the map's unspecified
iteration order. -/
structure Database where
  entries : List Json
  tokens : List (Nat × List String)
  tf : List (Nat × List (String × Nat))
  cached : List (String × CachedResult)

/-- `Database::new` (src/search.rs:71-78). -/
def Database.new : Database := ⟨[], [], [], []⟩

/-- `Database::add` (src/search.rs:80-82): pushes the entry, touching
nothing else. -/
def Database.add (st : Database) (entry : Json) : Database :=
  { st with entries := st.entries ++ [entry] }

/-- The error cases of `Database::tokenize_entries`, named after the three
`anyhow` contexts at src/search.rs:117, 135 and 138. -/
inductive DbError where
  | noTokens
  | noId
  | idNotU64
deriving DecidableEq

/-- Lexing plus uppercasing of each fragment, concatenated
(src/search.rs:118-126). -/
def tokenizeFragments : List String → List String
  | [] => []
  | f :: rest => (lexTokens f).map asciiUpper ++ tokenizeFragments rest

/-- The identifier extraction `entry.get("id")` then `.as_u64()`
(src/search.rs:135-138). -/
def entryId (e : Json) : Option Nat := (jsonGet e "id").bind Json.asU64

/-- The identifier as stored in the index: `id as u32` truncates
(src/search.rs:140, 147). -/
def entryIdMod (e : Json) : Option Nat := (entryId e).map (· % 4294967296)

/-- The body of the `tokenize_entries` loop for one entry
(src/search.rs:114-148): flatten (error on a `Null` top level), lex and
uppercase, extract the id (error when missing or not a u64), then insert the
token list and the term-frequency table under `id as u32`. -/
def tokenizeStep (st : Database) (entry : Json) : Except DbError Database :=
  match get_tokens entry with
  | none => .error .noTokens
  | some frags =>
    match jsonGet entry "id" with
    | none => .error .noId
    | some idVal =>
      match idVal.asU64 with
      | none => .error .idNotU64
      | some id =>
        let entryTokens := tokenizeFragments frags
        let key := id % 4294967296
        .ok { st with
                tokens := insertNat st.tokens key entryTokens,
                tf := insertNat st.tf key (buildTable entryTokens) }

/-- The `tokenize_entries` loop: processes entries in order and stops at the
first failing one, keeping the state mutated so far (the `?` operator
returns early out of the loop). -/
def tokenizeGo (st : Database) : List Json → Database × Option DbError
  | [] => (st, none)
  | e :: rest =>
    match tokenizeStep st e with
    | .error err => (st, some err)
    | .ok st2 => tokenizeGo st2 rest

/-- `Database::tokenize_entries` (src/search.rs:113-151). -/
def Database.tokenize_entries (st : Database) : Database × Option DbError :=
  tokenizeGo st st.entries

/-- `Database::get_tf` (src/search.rs:153-158): the token's stored count over
the table's total count, as an unguarded `f32` division. The Rust code
unwraps `self.tf.get(key)`; all call sites pass keys present in `tf`, the
model reads the table with a `[]` default. -/
noncomputable def Database.get_tf (st : Database) (key : Nat) (tok : String) : FVal :=
  let tbl := (lookupNat st.tf key).getD []
  fdivNat (countOf tbl tok) (sumTbl tbl)

/-- The document-frequency count (src/search.rs:162-167): the number of
term-frequency tables containing the token. -/
def dfCount (tf : List (Nat × List (String × Nat))) (tok : String) : Nat :=
  (tf.filter fun p => containsTok p.2 tok).length

/-- `Database::get_idf` (src/search.rs:160-170): `(n / df.max(1)).ln()` where
`n` is the current `self.entries.len()`; `f32::ln 0 = -inf` when there are
no entries. -/
noncomputable def Database.get_idf (st : Database) (tok : String) : FVal :=
  let n := st.entries.length
  let df := Nat.max (dfCount st.tf tok) 1
  if n = 0 then .ninf else .fin (Real.log ((n : ℝ) / (df : ℝ)))

/-- `Database::calculate_tf_idf` (src/search.rs:172-177). -/
noncomputable def Database.calculate_tf_idf (st : Database) (key : Nat) (tok : String) : FVal :=
  fmul (st.get_tf key tok) (st.get_idf tok)

/-- The per-document relevance `tokens.iter().map(...).sum::<f32>()`
(src/search.rs:199-202): an `f32` sum starting at 0.0, folded left in token
order. -/
noncomputable def relevance (st : Database) (toks : List String) (key : Nat) : FVal :=
  toks.foldl (fun acc t => fadd acc (st.calculate_tf_idf key t)) (.fin 0)

/-- Query tokenization (src/search.rs:186-189): lex the raw query, uppercase
every token. -/
def tokenizeQuery (q : String) : List String := (lexTokens q).map asciiUpper

/-- Stable insertion of one candidate into a list already sorted descending
by score, with the comparator `b.partial_cmp(a).unwrap()` of
src/search.rs:207; `none` models the panic of `unwrap` on NaN. The element
being inserted comes earlier in the original list than everything already
inserted, so on ties it goes first — exactly the stable behavior of Rust
`sort_by`. -/
noncomputable def insertD (x : Nat × FVal) : List (Nat × FVal) → Option (List (Nat × FVal))
  | [] => some [x]
  | h :: t =>
    match fcmp h.2 x.2 with
    | none => none
    | some .gt => (insertD x t).map (h :: ·)
    | some _ => some (x :: h :: t)

/-- The stable descending-by-score sort `result.sort_by(|(_, a), (_, b)|
b.partial_cmp(a).unwrap())` (src/search.rs:207), as a stable insertion sort;
`none` models a comparator panic. -/
noncomputable def sortDesc : List (Nat × FVal) → Option (List (Nat × FVal))
  | [] => some []
  | x :: xs => (sortDesc xs).bind (insertD x)

/-- The entry lookup in the result-assembly loop (src/search.rs:211-216):
`entries.iter().find(|e| e.get("id").unwrap().as_u64().unwrap() == id)`,
then `unwrap` of the find. `none` models any of those panics. -/
def findEntry : List Json → Nat → Option Json
  | [], _ => none
  | e :: rest, id =>
    match entryId e with
    | none => none
    | some j => if j = id then some e else findEntry rest id

/-- The result-assembly loop (src/search.rs:209-218): pair every sorted
(id, score) with its entry value. -/
def attachEntries (entries : List Json) : List (Nat × FVal) → Option (List (Json × FVal))
  | [] => some []
  | (id, score) :: rest =>
    match findEntry entries id with
    | none => none
    | some e => (attachEntries entries rest).map ((e, score) :: ·)

/-- The uncached part of `Database::search` up to the ranked pair list
(src/search.rs:186-218): tokenize the query, score every indexed id, keep
strictly positive scores, sort descending (stable), attach entry values.
`none` models a panic. -/
noncomputable def searchCompute (st : Database) (q : String) : Option (List (Json × FVal)) :=
  let toks := tokenizeQuery q
  let cands := st.tf.map fun p => (p.1, relevance st toks p.1)
  match sortDesc (cands.filter fun p => fgt0 p.2) with
  | none => none
  | some sorted => attachEntries st.entries sorted

/-- The cache-miss path of `Database::search` (src/search.rs:186-228):
compute, then unconditionally store the result under the raw query string
with expiration `now + 60` seconds (src/search.rs:220-226). -/
noncomputable def searchFresh (st : Database) (now : Nat) (q : String) :
    Database × Option (List (Json × FVal)) :=
  match searchCompute st q with
  | none => (st, none)
  | some pairs =>
    ({ st with cached := insertStr st.cached q ⟨pairs, now + 60⟩ }, some pairs)

/-- `Database::search` (src/search.rs:179-229). The Rust function returns
`Result` but has no error path; `none` in the second component models a
panic, `some list` models `Ok(list)`. The cache is consulted first, keyed by
the raw query string, and a hit is returned as long as its expiration is
strictly in the future (src/search.rs:180-184). -/
noncomputable def Database.search (st : Database) (now : Nat) (q : String) :
    Database × Option (List (Json × FVal)) :=
  match lookupStr st.cached q with
  | some c => if now < c.expiration then (st, some c.result) else searchFresh st now q
  | none => searchFresh st now q

/-- Engine states reachable through the public operations of
`src/search.rs`: `new`, `add`, `tokenize_entries` and `search` (the state a
call leaves behind, whether or not the call reported an error). -/
inductive Reach : Database → Prop where
  | new : Reach Database.new
  | add (st : Database) (e : Json) : Reach st → Reach (st.add e)
  | build (st : Database) : Reach st → Reach st.tokenize_entries.1
  | run (st : Database) (now : Nat) (q : String) : Reach st → Reach (st.search now q).1

theorem fgt0_fin_of_pos {x : ℝ} (h : 0 < x) : fgt0 (.fin x) = true := by
  simp [fgt0, h]

theorem fgt0_fin_of_nonpos {x : ℝ} (h : x ≤ 0) : fgt0 (.fin x) = false := by
  simp [fgt0, not_lt.mpr h]

theorem fcmp_ne_none {a b : FVal} (ha : a ≠ .nan) (hb : b ≠ .nan) : fcmp a b ≠ none := by
  cases a <;> cases b <;> simp_all [fcmp]

theorem fgt0_ne_nan {a : FVal} (h : fgt0 a = true) : a ≠ .nan := by
  cases a <;> simp_all [fgt0]

theorem insertD_subset {x : Nat × FVal} {l r : List (Nat × FVal)}
    (h : insertD x l = some r) : ∀ p ∈ r, p = x ∨ p ∈ l := by
  induction l generalizing r with
  | nil =>
    simp only [insertD, Option.some_inj] at h
    subst h
    simp
  | cons w ws ih =>
    intro p hp
    simp only [insertD] at h
    rcases hc : fcmp w.2 x.2 with _ | ord
    · simp [hc] at h
    · rw [hc] at h
      cases ord with
      | gt =>
        simp only [Option.map_eq_some'] at h
        obtain ⟨r2, h2, rfl⟩ := h
        rcases List.mem_cons.mp hp with rfl | hp2
        · exact Or.inr (List.mem_cons_self _ _)
        · rcases ih h2 p hp2 with h3 | h3
          · exact Or.inl h3
          · exact Or.inr (List.mem_cons_of_mem _ h3)
      | lt =>
        simp only [Option.some_inj] at h
        subst h
        simpa using hp
      | eq =>
        simp only [Option.some_inj] at h
        subst h
        simpa using hp

theorem sortDesc_subset {l r : List (Nat × FVal)}
    (h : sortDesc l = some r) : ∀ p ∈ r, p ∈ l := by
  induction l generalizing r with
  | nil =>
    simp only [sortDesc, Option.some_inj] at h
    subst h
    simp
  | cons x xs ih =>
    intro p hp
    simp only [sortDesc] at h
    rcases hs : sortDesc xs with _ | r2
    · simp [hs] at h
    · rw [hs] at h
      simp only [Option.some_bind] at h
      rcases insertD_subset h p hp with rfl | h2
      · exact List.mem_cons_self _ _
      · exact List.mem_cons_of_mem _ (ih hs p h2)

theorem insertD_ne_none {x : Nat × FVal} {l : List (Nat × FVal)}
    (hx : x.2 ≠ .nan) (hl : ∀ p ∈ l, p.2 ≠ .nan) : insertD x l ≠ none := by
  induction l with
  | nil => simp [insertD]
  | cons h t ih =>
    have hh : h.2 ≠ .nan := hl h (List.mem_cons_self h t)
    have ht : ∀ p ∈ t, p.2 ≠ .nan := fun p hp => hl p (List.mem_cons_of_mem h hp)
    have hcmp := fcmp_ne_none hh hx
    simp only [insertD]
    rcases hord : fcmp h.2 x.2 with _ | ord
    · exact absurd hord hcmp
    · cases ord <;> simp_all [Option.map_eq_none']

theorem sortDesc_ne_none {l : List (Nat × FVal)}
    (hl : ∀ p ∈ l, p.2 ≠ .nan) : sortDesc l ≠ none := by
  induction l with
  | nil => simp [sortDesc]
  | cons x xs ih =>
    have hx : x.2 ≠ .nan := hl x (List.mem_cons_self x xs)
    have hxs : ∀ p ∈ xs, p.2 ≠ .nan := fun p hp => hl p (List.mem_cons_of_mem x hp)
    simp only [sortDesc]
    rcases hs : sortDesc xs with _ | r
    · exact absurd hs (ih hxs)
    · have hr : ∀ p ∈ r, p.2 ≠ .nan := fun p hp => hxs p (sortDesc_subset hs p hp)
      simpa using insertD_ne_none hx hr

/-- Every element surviving the `*score > 0.0` filter has a non-NaN score, so
the sort comparator never panics, whatever the scores were. -/
theorem sortDesc_filter_ne_none (l : List (Nat × FVal)) :
    sortDesc (l.filter fun p => fgt0 p.2) ≠ none := by
  refine sortDesc_ne_none fun p hp => ?_
  exact fgt0_ne_nan (List.mem_filter.mp hp).2

theorem lookupNat_insertNat_ne {α : Type} (l : List (Nat × α)) (key k : Nat) (v : α)
    (h : k ≠ key) : lookupNat (insertNat l key v) k = lookupNat l k := by
  induction l with
  | nil => simp [insertNat, lookupNat, h, Ne.symm h]
  | cons p rest ih =>
    obtain ⟨k2, w⟩ := p
    simp only [insertNat]
    by_cases h2 : k2 = key
    · subst h2
      simp [lookupNat, Ne.symm h]
    · rw [if_neg h2]
      by_cases h3 : k2 = k
      · simp [lookupNat, h3]
      · simp [lookupNat, h3, ih]

theorem mem_insertNat {α : Type} {l : List (Nat × α)} {key : Nat} {v : α} {p : Nat × α}
    (h : p ∈ insertNat l key v) : p = (key, v) ∨ p ∈ l := by
  induction l with
  | nil => simpa [insertNat] using h
  | cons q rest ih =>
    obtain ⟨k2, w⟩ := q
    simp only [insertNat] at h
    by_cases h2 : k2 = key
    · subst h2
      rw [if_pos rfl] at h
      rcases List.mem_cons.mp h with rfl | h3
      · exact Or.inl rfl
      · exact Or.inr (List.mem_cons_of_mem _ h3)
    · rw [if_neg h2] at h
      rcases List.mem_cons.mp h with rfl | h3
      · exact Or.inr (List.mem_cons_self _ _)
      · rcases ih h3 with h4 | h4
        · exact Or.inl h4
        · exact Or.inr (List.mem_cons_of_mem _ h4)

theorem mem_map_fst_insertNat {α : Type} {l : List (Nat × α)} {key k : Nat} {v : α}
    (h : k ∈ (insertNat l key v).map Prod.fst) : k = key ∨ k ∈ l.map Prod.fst := by
  rcases List.mem_map.mp h with ⟨p, hp, rfl⟩
  rcases mem_insertNat hp with rfl | h2
  · exact Or.inl rfl
  · exact Or.inr (List.mem_map_of_mem _ h2)

theorem nodup_map_fst_insertNat {α : Type} {l : List (Nat × α)} {key : Nat} {v : α}
    (h : (l.map Prod.fst).Nodup) : ((insertNat l key v).map Prod.fst).Nodup := by
  induction l with
  | nil => simp [insertNat]
  | cons q rest ih =>
    obtain ⟨k2, w⟩ := q
    simp only [insertNat]
    by_cases h2 : k2 = key
    · subst h2
      rw [if_pos rfl]
      simpa using h
    · rw [if_neg h2]
      simp only [List.map_cons, List.nodup_cons] at h ⊢
      refine ⟨fun h3 => ?_, ih h.2⟩
      rcases mem_map_fst_insertNat h3 with h4 | h4
      · exact h2 h4
      · exact h.1 h4

theorem lookupNat_of_nodup_mem {α : Type} {l : List (Nat × α)}
    (hn : (l.map Prod.fst).Nodup) {k : Nat} {v : α} (h : (k, v) ∈ l) :
    lookupNat l k = some v := by
  induction l with
  | nil => simp at h
  | cons q rest ih =>
    obtain ⟨k2, w⟩ := q
    simp only [List.map_cons, List.nodup_cons] at hn
    rcases List.mem_cons.mp h with h2 | h2
    · injection h2 with h3 h4
      subst h3
      subst h4
      simp [lookupNat]
    · have hk : k2 ≠ k := by
        intro h3
        subst h3
        exact hn.1 (List.mem_map_of_mem Prod.fst h2)
      simp only [lookupNat, if_neg hk]
      exact ih hn.2 h2

theorem mem_insertStr {α : Type} {l : List (String × α)} {key : String} {v : α}
    {p : String × α} (h : p ∈ insertStr l key v) : p = (key, v) ∨ p ∈ l := by
  induction l with
  | nil => simpa [insertStr] using h
  | cons q rest ih =>
    obtain ⟨k2, w⟩ := q
    simp only [insertStr] at h
    by_cases h2 : k2 = key
    · subst h2
      rw [if_pos rfl] at h
      rcases List.mem_cons.mp h with rfl | h3
      · exact Or.inl rfl
      · exact Or.inr (List.mem_cons_of_mem _ h3)
    · rw [if_neg h2] at h
      rcases List.mem_cons.mp h with rfl | h3
      · exact Or.inr (List.mem_cons_self _ _)
      · rcases ih h3 with h4 | h4
        · exact Or.inl h4
        · exact Or.inr (List.mem_cons_of_mem _ h4)

theorem lookupStr_mem {α : Type} {l : List (String × α)} {k : String} {v : α}
    (h : lookupStr l k = some v) : (k, v) ∈ l := by
  induction l with
  | nil => simp [lookupStr] at h
  | cons q rest ih =>
    obtain ⟨k2, w⟩ := q
    simp only [lookupStr] at h
    by_cases h2 : k2 = k
    · subst h2
      rw [if_pos rfl] at h
      obtain rfl : w = v := by injection h
      exact List.mem_cons_self _ _
    · rw [if_neg h2] at h
      exact List.mem_cons_of_mem _ (ih h)

theorem sumTbl_bumpCount (tbl : List (String × Nat)) (tok : String) :
    sumTbl (bumpCount tbl tok) = sumTbl tbl + 1 := by
  induction tbl with
  | nil => simp [bumpCount, sumTbl]
  | cons p rest ih =>
    obtain ⟨t, c⟩ := p
    by_cases h : t = tok
    · simp [bumpCount, h, sumTbl]
      omega
    · simp [bumpCount, h, sumTbl, ih]
      omega

theorem sumTbl_foldl_bump (toks : List String) :
    ∀ tbl, sumTbl (toks.foldl bumpCount tbl) = sumTbl tbl + toks.length := by
  induction toks with
  | nil => intro tbl; simp
  | cons t rest ih =>
    intro tbl
    simp only [List.foldl_cons, ih, sumTbl_bumpCount, List.length_cons]
    omega

theorem sumTbl_buildTable (toks : List String) : sumTbl (buildTable toks) = toks.length := by
  simpa [buildTable, sumTbl] using sumTbl_foldl_bump toks []

theorem digitChar_isAlphanum {d : Nat} (h : d < 10) : (digitChar d).isAlphanum = true := by
  interval_cases d <;> decide

theorem lexAux_ne_nil : ∀ (cs acc : List Char), (∀ c ∈ cs, c.isAlphanum = true) →
    (cs ≠ [] ∨ acc ≠ []) → lexAux cs acc ≠ [] := by
  intro cs
  induction cs with
  | nil =>
    intro acc _ h
    rcases h with h | h
    · exact absurd rfl h
    · simp only [lexAux]
      rw [if_neg (by simpa [List.isEmpty_iff] using h)]
      simp
  | cons c rest ih =>
    intro acc hall _
    have hc : c.isAlphanum = true := hall c (List.mem_cons_self _ _)
    simp only [lexAux, hc, if_true]
    exact ih (c :: acc) (fun x hx => hall x (List.mem_cons_of_mem _ hx)) (Or.inr (by simp))

theorem natDigitsAux_all_alnum : ∀ (fuel n : Nat), ∀ c ∈ natDigitsAux fuel n,
    c.isAlphanum = true := by
  intro fuel
  induction fuel with
  | zero => intro n c hc; simp [natDigitsAux] at hc
  | succ f ih =>
    intro n c hc
    simp only [natDigitsAux] at hc
    by_cases h : n < 10
    · rw [if_pos h] at hc
      simp only [List.mem_singleton] at hc
      subst hc
      exact digitChar_isAlphanum h
    · rw [if_neg h] at hc
      rcases List.mem_append.mp hc with h2 | h2
      · exact ih _ c h2
      · simp only [List.mem_singleton] at h2
        subst h2
        exact digitChar_isAlphanum (Nat.mod_lt _ (by norm_num))

theorem natDigitsAux_ne_nil (fuel n : Nat) : natDigitsAux (fuel + 1) n ≠ [] := by
  simp only [natDigitsAux]
  split <;> simp

theorem lexTokens_natRepr_ne_nil (n : Nat) : lexTokens (natRepr n) ≠ [] := by
  exact lexAux_ne_nil (natDigitsAux (n + 1) n) []
    (fun c hc => natDigitsAux_all_alnum _ _ c hc) (Or.inl (natDigitsAux_ne_nil n n))

theorem assocFind_fragment_mem {fields : List (String × Json)} {key : String} {v : Json}
    (h : assocFind fields key = some v) :
    ∀ x ∈ (get_tokens v).getD [], x ∈ getTokensKVs fields := by
  induction fields with
  | nil => simp [assocFind] at h
  | cons kv rest ih =>
    obtain ⟨k, w⟩ := kv
    intro x hx
    simp only [assocFind] at h
    by_cases hk : k = key
    · rw [if_pos hk] at h
      obtain rfl : w = v := by injection h
      simp only [getTokensKVs]
      exact List.mem_append_left _ hx
    · rw [if_neg hk] at h
      simp only [getTokensKVs]
      exact List.mem_append_right _ (ih h x hx)

theorem tokenizeFragments_ne_nil {frags : List String} {f : String} (hf : f ∈ frags)
    (h : (lexTokens f).map asciiUpper ≠ []) : tokenizeFragments frags ≠ [] := by
  induction frags with
  | nil => simp at hf
  | cons g rest ih =>
    simp only [tokenizeFragments, ne_eq, List.append_eq_nil, not_and]
    rcases List.mem_cons.mp hf with rfl | h2
    · intro h3
      exact absurd h3 h
    · intro _ h3
      exact ih h2 h3

theorem entryId_obj {e : Json} {n : Nat} (h : entryId e = some n) :
    ∃ fields, e = .obj fields ∧ assocFind fields "id" = some (.num (.uInt n)) := by
  unfold entryId at h
  rcases he : jsonGet e "id" with _ | jv
  · rw [he] at h
    simp at h
  · rw [he] at h
    simp only [Option.some_bind] at h
    have hv : jv = Json.num (.uInt n) := by
      cases jv with
      | num jn =>
        cases jn with
        | uInt m =>
          simp only [Json.asU64, JNum.asU64, Option.some_inj] at h
          subst h
          rfl
        | other t => simp [Json.asU64, JNum.asU64] at h
      | obj fields => simp [Json.asU64] at h
      | arr elems => simp [Json.asU64] at h
      | str s => simp [Json.asU64] at h
      | bool b => simp [Json.asU64] at h
      | null => simp [Json.asU64] at h
    subst hv
    cases e with
    | obj fields => exact ⟨fields, rfl, he⟩
    | arr elems => simp [jsonGet] at he
    | str s => simp [jsonGet] at he
    | num jn => simp [jsonGet] at he
    | bool b => simp [jsonGet] at he
    | null => simp [jsonGet] at he

theorem entryId_fragment {e : Json} {n : Nat} (h : entryId e = some n) :
    ∃ fields, e = .obj fields ∧ natRepr n ∈ getTokensKVs fields := by
  obtain ⟨fields, rfl, hf⟩ := entryId_obj h
  refine ⟨fields, rfl, assocFind_fragment_mem hf (natRepr n) ?_⟩
  simp [get_tokens, JNum.text]

theorem entryTokens_ne_nil {e : Json} {n : Nat} {frags : List String}
    (hid : entryId e = some n) (htok : get_tokens e = some frags) :
    tokenizeFragments frags ≠ [] := by
  obtain ⟨fields, rfl, hmem⟩ := entryId_fragment hid
  have hfr : frags = getTokensKVs fields := by
    simp only [get_tokens, Option.some_inj] at htok
    exact htok.symm
  subst hfr
  refine tokenizeFragments_ne_nil hmem ?_
  simp only [ne_eq, List.map_eq_nil_iff]
  exact lexTokens_natRepr_ne_nil n

/-- Invariant holding in every reachable engine state: each indexed table has
a positive token total (every indexed document carries at least its own id
token), the index keys are distinct, each is the (truncated) id of a stored
entry, and every cached result of a query tokenizing to nothing is empty. -/
def DbInv (st : Database) : Prop :=
  (∀ p ∈ st.tf, 1 ≤ sumTbl p.2) ∧
  (st.tf.map Prod.fst).Nodup ∧
  (∀ p ∈ st.tf, ∃ e ∈ st.entries, entryIdMod e = some p.1) ∧
  (∀ p ∈ st.cached, tokenizeQuery p.1 = [] → p.2.result = [])

theorem inv_new : DbInv Database.new := by
  refine ⟨?_, ?_, ?_, ?_⟩ <;> simp [Database.new]

theorem inv_add {st : Database} {e : Json} (h : DbInv st) : DbInv (st.add e) := by
  obtain ⟨h1, h2, h3, h4⟩ := h
  refine ⟨h1, h2, ?_, h4⟩
  intro p hp
  obtain ⟨e2, he2, hid⟩ := h3 p hp
  exact ⟨e2, List.mem_append_left _ he2, hid⟩

theorem tokenizeStep_ok {st : Database} {e : Json} {st2 : Database}
    (h : tokenizeStep st e = .ok st2) :
    ∃ frags id, get_tokens e = some frags ∧ entryId e = some id ∧
      st2 = { st with
        tokens := insertNat st.tokens (id % 4294967296) (tokenizeFragments frags),
        tf := insertNat st.tf (id % 4294967296) (buildTable (tokenizeFragments frags)) } := by
  unfold tokenizeStep at h
  split at h
  · simp at h
  · next frags h1 =>
    split at h
    · simp at h
    · next idVal h2 =>
      split at h
      · simp at h
      · next id h3 =>
        refine ⟨frags, id, h1, ?_, ?_⟩
        · unfold entryId
          rw [h2]
          simpa using h3
        · injection h with h4
          exact h4.symm

theorem inv_tokenizeStep {st : Database} {e : Json} {st2 : Database}
    (hinv : DbInv st) (he : e ∈ st.entries) (h : tokenizeStep st e = .ok st2) :
    DbInv st2 ∧ st2.entries = st.entries ∧ st2.cached = st.cached := by
  obtain ⟨frags, id, htok, hid, rfl⟩ := tokenizeStep_ok h
  obtain ⟨h1, h2, h3, h4⟩ := hinv
  refine ⟨⟨?_, ?_, ?_, ?_⟩, rfl, rfl⟩
  · intro p hp
    rcases mem_insertNat hp with rfl | hp2
    · have hne := entryTokens_ne_nil hid htok
      have : (tokenizeFragments frags).length ≠ 0 := by
        simpa [List.length_eq_zero] using hne
      simp only [sumTbl_buildTable]
      omega
    · exact h1 p hp2
  · exact nodup_map_fst_insertNat h2
  · intro p hp
    rcases mem_insertNat hp with rfl | hp2
    · exact ⟨e, he, by simp [entryIdMod, hid]⟩
    · exact h3 p hp2
  · exact h4

theorem tokenizeGo_frame : ∀ (l : List Json) (st : Database),
    (tokenizeGo st l).1.entries = st.entries ∧ (tokenizeGo st l).1.cached = st.cached := by
  intro l
  induction l with
  | nil => intro st; exact ⟨rfl, rfl⟩
  | cons e rest ih =>
    intro st
    simp only [tokenizeGo]
    split
    · exact ⟨rfl, rfl⟩
    · next st2 h2 =>
      obtain ⟨frags, id, _, _, rfl⟩ := tokenizeStep_ok h2
      exact ih _

theorem tokenizeGo_inv : ∀ (l : List Json) (st : Database),
    DbInv st → (∀ e ∈ l, e ∈ st.entries) → DbInv (tokenizeGo st l).1 := by
  intro l
  induction l with
  | nil => intro st h _; exact h
  | cons e rest ih =>
    intro st hinv hmem
    simp only [tokenizeGo]
    split
    · exact hinv
    · next st2 h2 =>
      have he : e ∈ st.entries := hmem e (List.mem_cons_self _ _)
      obtain ⟨hinv2, hent, _⟩ := inv_tokenizeStep hinv he h2
      exact ih st2 hinv2 (fun x hx => hent ▸ hmem x (List.mem_cons_of_mem _ hx))

theorem inv_build {st : Database} (h : DbInv st) : DbInv st.tokenize_entries.1 :=
  tokenizeGo_inv st.entries st h (fun _ hx => hx)

theorem relevance_nil (st : Database) (key : Nat) : relevance st [] key = .fin 0 := rfl

theorem searchCompute_empty (st : Database) {q : String} (h : tokenizeQuery q = []) :
    searchCompute st q = some [] := by
  have hf : (st.tf.map fun p => (p.1, relevance st [] p.1)).filter (fun p => fgt0 p.2) = [] := by
    rw [List.filter_eq_nil_iff]
    intro p hp
    rcases List.mem_map.mp hp with ⟨r, hr, rfl⟩
    simp [relevance_nil, fgt0_fin_of_nonpos le_rfl]
  simp only [searchCompute, h, hf]
  simp [sortDesc, attachEntries]

theorem inv_searchFresh {st : Database} (hinv : DbInv st) (now : Nat) (q : String) :
    DbInv (searchFresh st now q).1 := by
  obtain ⟨h1, h2, h3, h4⟩ := hinv
  rcases hsc : searchCompute st q with _ | pairs
  · simp only [searchFresh, hsc]
    exact ⟨h1, h2, h3, h4⟩
  · simp only [searchFresh, hsc]
    refine ⟨h1, h2, h3, ?_⟩
    intro p hp hq
    rcases mem_insertStr hp with rfl | hp2
    · have hemp := searchCompute_empty st hq
      rw [hsc] at hemp
      exact Option.some.inj hemp
    · exact h4 p hp2 hq

theorem inv_run {st : Database} (hinv : DbInv st) (now : Nat) (q : String) :
    DbInv (st.search now q).1 := by
  unfold Database.search
  split
  · split
    · exact hinv
    · exact inv_searchFresh hinv now q
  · exact inv_searchFresh hinv now q

theorem reach_inv {st : Database} (h : Reach st) : DbInv st := by
  induction h with
  | new => exact inv_new
  | add st e _ ih => exact inv_add ih
  | build st _ ih => exact inv_build ih
  | run st now q _ ih => exact inv_run ih now q

theorem tf_length_le {st : Database} (h2 : (st.tf.map Prod.fst).Nodup)
    (h3 : ∀ p ∈ st.tf, ∃ e ∈ st.entries, entryIdMod e = some p.1) :
    st.tf.length ≤ st.entries.length := by
  have hsub : ∀ k ∈ st.tf.map Prod.fst, k ∈ st.entries.filterMap entryIdMod := by
    intro k hk
    rcases List.mem_map.mp hk with ⟨p, hp, rfl⟩
    obtain ⟨e, he, hid⟩ := h3 p hp
    exact List.mem_filterMap.mpr ⟨e, he, hid⟩
  calc st.tf.length = (st.tf.map Prod.fst).length := (List.length_map _ _).symm
    _ = (st.tf.map Prod.fst).toFinset.card := (List.toFinset_card_of_nodup h2).symm
    _ ≤ (st.entries.filterMap entryIdMod).toFinset.card :=
        Finset.card_le_card
          (fun x hx => List.mem_toFinset.mpr (hsub x (List.mem_toFinset.mp hx)))
    _ ≤ (st.entries.filterMap entryIdMod).length := (st.entries.filterMap entryIdMod).toFinset_card_le
    _ ≤ st.entries.length := List.length_filterMap_le _ _

theorem get_tf_fin_nonneg {st : Database} (hinv : DbInv st)
    {p : Nat × List (String × Nat)} (hp : p ∈ st.tf) (tok : String) :
    ∃ x : ℝ, st.get_tf p.1 tok = .fin x ∧ 0 ≤ x := by
  obtain ⟨h1, h2, _, _⟩ := hinv
  have hl : lookupNat st.tf p.1 = some p.2 :=
    lookupNat_of_nodup_mem h2 (by rw [Prod.mk.eta]; exact hp)
  have hs : ¬ sumTbl p.2 = 0 := by
    have := h1 p hp
    omega
  simp only [Database.get_tf, hl, Option.getD_some]
  unfold fdivNat
  rw [if_neg hs]
  exact ⟨_, rfl, by positivity⟩

theorem get_idf_fin_nonneg {st : Database} (hinv : DbInv st) (htf : st.tf ≠ [])
    (tok : String) : ∃ x : ℝ, st.get_idf tok = .fin x ∧ 0 ≤ x := by
  obtain ⟨h1, h2, h3, h4⟩ := hinv
  have hne : st.entries ≠ [] := by
    obtain ⟨p, hp⟩ := List.exists_mem_of_ne_nil st.tf htf
    obtain ⟨e, he, _⟩ := h3 p hp
    intro h0
    rw [h0] at he
    simp at he
  have hlen : 1 ≤ st.entries.length := List.length_pos.mpr hne
  have hdf : dfCount st.tf tok ≤ st.entries.length :=
    le_trans (List.length_filter_le _ _) (tf_length_le h2 h3)
  have hmax : Nat.max (dfCount st.tf tok) 1 ≤ st.entries.length := by
    rw [Nat.max_le]
    exact ⟨hdf, hlen⟩
  have hpos : (0 : ℝ) < ((Nat.max (dfCount st.tf tok) 1 : Nat) : ℝ) := by
    have : 1 ≤ Nat.max (dfCount st.tf tok) 1 := Nat.le_max_right _ 1
    exact_mod_cast Nat.lt_of_lt_of_le Nat.zero_lt_one this
  simp only [Database.get_idf]
  rw [if_neg (by omega : ¬ st.entries.length = 0)]
  refine ⟨_, rfl, Real.log_nonneg ?_⟩
  rw [le_div_iff₀ hpos, one_mul]
  exact_mod_cast hmax

theorem calculate_fin_nonneg {st : Database} (hinv : DbInv st)
    {p : Nat × List (String × Nat)} (hp : p ∈ st.tf) (tok : String) :
    ∃ x : ℝ, st.calculate_tf_idf p.1 tok = .fin x ∧ 0 ≤ x := by
  obtain ⟨a, ha, ha0⟩ := get_tf_fin_nonneg hinv hp tok
  have htf : st.tf ≠ [] := by
    intro h
    rw [h] at hp
    simp at hp
  obtain ⟨b, hb, hb0⟩ := get_idf_fin_nonneg hinv htf tok
  exact ⟨a * b, by simp [Database.calculate_tf_idf, ha, hb, fmul], mul_nonneg ha0 hb0⟩

theorem relevance_fin_nonneg {st : Database} (hinv : DbInv st)
    {p : Nat × List (String × Nat)} (hp : p ∈ st.tf) (toks : List String) :
    ∃ x : ℝ, relevance st toks p.1 = .fin x ∧ 0 ≤ x := by
  unfold relevance
  suffices h : ∀ (ts : List String) (x : ℝ), 0 ≤ x →
      ∃ y : ℝ, ts.foldl (fun acc t => fadd acc (st.calculate_tf_idf p.1 t)) (.fin x) = .fin y
        ∧ 0 ≤ y by
    simpa using h toks 0 le_rfl
  intro ts
  induction ts with
  | nil => intro x hx; exact ⟨x, rfl, hx⟩
  | cons t rest ih =>
    intro x hx
    obtain ⟨a, ha, ha0⟩ := calculate_fin_nonneg hinv hp t
    simp only [List.foldl_cons, ha, fadd]
    exact ih (x + a) (by positivity)

/-- Whether one entry passes `tokenize_entries` without error: it flattens
(not a top-level `Null`) and carries a u64-readable `id` field. -/
def entryOk (e : Json) : Bool := (get_tokens e).isSome && (entryId e).isSome

theorem tokenizeStep_isOk_entryOk {st : Database} {e : Json} {st2 : Database}
    (h : tokenizeStep st e = .ok st2) : entryOk e = true := by
  obtain ⟨frags, id, htok, hid, _⟩ := tokenizeStep_ok h
  simp [entryOk, htok, hid]

theorem tokenizeStep_isErr_entryOk {st : Database} {e : Json} {err : DbError}
    (h : tokenizeStep st e = .error err) : entryOk e = false := by
  unfold tokenizeStep at h
  split at h
  · next h1 => simp [entryOk, h1]
  · next frags h1 =>
    split at h
    · next h2 => simp [entryOk, entryId, h2]
    · next idVal h2 =>
      split at h
      · next h3 => simp [entryOk, entryId, h2, h3]
      · simp at h

theorem tokenizeGo_err : ∀ (l : List Json) (st : Database) (err : DbError),
    (tokenizeGo st l).2 = some err →
    (∃ e ∈ l, entryOk e = false) ∧
    ∀ id : Nat, (∀ e ∈ l.takeWhile entryOk, entryIdMod e ≠ some id) →
      lookupNat (tokenizeGo st l).1.tf id = lookupNat st.tf id := by
  intro l
  induction l with
  | nil => intro st err h; simp [tokenizeGo] at h
  | cons e rest ih =>
    intro st err h
    rcases hstep : tokenizeStep st e with err2 | st2
    · simp only [tokenizeGo, hstep] at h ⊢
      have hbad := tokenizeStep_isErr_entryOk hstep
      exact ⟨⟨e, List.mem_cons_self _ _, hbad⟩, fun id _ => by simp⟩
    · simp only [tokenizeGo, hstep] at h ⊢
      have hok := tokenizeStep_isOk_entryOk hstep
      obtain ⟨hbad, hframe⟩ := ih st2 err h
      constructor
      · obtain ⟨e2, he2, hb⟩ := hbad
        exact ⟨e2, List.mem_cons_of_mem _ he2, hb⟩
      · intro id hids
        rw [List.takeWhile_cons_of_pos hok] at hids
        have hide : entryIdMod e ≠ some id := hids e (List.mem_cons_self _ _)
        have hrest : ∀ x ∈ rest.takeWhile entryOk, entryIdMod x ≠ some id :=
          fun x hx => hids x (List.mem_cons_of_mem _ hx)
        rw [hframe id hrest]
        obtain ⟨frags, idn, htok, hid, rfl⟩ := tokenizeStep_ok hstep
        have hne : idn % 4294967296 ≠ id := by
          intro hcontra
          apply hide
          simp [entryIdMod, hid, hcontra]
        exact lookupNat_insertNat_ne _ _ _ _ (Ne.symm hne)

theorem tokenizeGo_null : ∀ (l : List Json) (st : Database), Json.null ∈ l →
    (tokenizeGo st l).2 ≠ none := by
  intro l
  induction l with
  | nil => intro st h; simp at h
  | cons e rest ih =>
    intro st hmem
    simp only [tokenizeGo]
    split
    · simp
    · next st2 h2 =>
      rcases List.mem_cons.mp hmem with rfl | h3
      · exfalso
        obtain ⟨frags, id, htok, _, _⟩ := tokenizeStep_ok h2
        simp [get_tokens] at htok
      · exact ih st2 h3

theorem getTokensKVs_eq_values : ∀ kvs : List (String × Json),
    getTokensKVs kvs = getTokensList (kvs.map Prod.snd) := by
  intro kvs
  induction kvs with
  | nil => rfl
  | cons kv rest ih =>
    obtain ⟨k, v⟩ := kv
    simp only [List.map_cons, getTokensKVs, getTokensList, ih]

/-! Fixtures for the concrete theorems. -/

def eDoc1 : Json := .obj [("id", .num (.uInt 1)), ("x", .str "A")]
def eDoc2 : Json := .obj [("id", .num (.uInt 2)), ("x", .str "A")]
def eDoc3 : Json := .obj [("id", .num (.uInt 3)), ("x", .str "B")]
def eDocB2 : Json := .obj [("id", .num (.uInt 2)), ("x", .str "B")]
def eId3 : Json := .obj [("id", .num (.uInt 3))]

/-- Two documents (ids 1 and 2) added and indexed. -/
def stBuilt : Database := ((Database.new.add eDoc1).add eDocB2).tokenize_entries.1

/-- A valid document followed by a top-level `Null`, not yet indexed. -/
def stC3 : Database := (Database.new.add eDoc1).add Json.null

/-- A single top-level `Null` document, not yet indexed. -/
def stC10 : Database := Database.new.add Json.null

/-- An index holding a document id (7) whose term-frequency table is empty,
the situation the spec's zero-token guard is about. -/
def stC4 : Database := ⟨[], [], [(7, [])], []⟩

/-- A state whose only content is a cache entry for the raw query `"Q"`
holding an empty result list expiring at instant 100. -/
def stW6 : Database := ⟨[], [], [], [("Q", ⟨[], 100⟩)]⟩

/- Claims C7, C2, C3, C10, C9. -/

/-- C7 counterexample: `Database::add` does not assign an identifier. Adding
a document with no `id` field stores it verbatim, with no id present (the
sequential ids of the repository are written by the caller in `main.rs`
before `add` is called). -/
theorem c7_add_does_not_assign_id :
    (Database.new.add (Json.str "A")).entries = [Json.str "A"] ∧
      jsonGet (Json.str "A") "id" = none :=
  ⟨rfl, rfl⟩

/-- C7 amended: for every engine state, `add` appends the document unchanged
to the collection and leaves the term-frequency index, the stored token
lists and the query cache untouched; it does not assign an identifier (the
caller does, before calling `add`). -/
theorem c7_add_frame (st : Database) (e : Json) :
    (st.add e).entries = st.entries ++ [e] ∧ (st.add e).tf = st.tf ∧
      (st.add e).tokens = st.tokens ∧ (st.add e).cached = st.cached :=
  ⟨rfl, rfl, rfl, rfl⟩

/-- C2: calling `search` on a populated but never-indexed database is a
successful call returning `Ok` with the empty list — there is no
`IndexNotBuilt` error in the code (the `Result` of `search` has no error
path), contradicting the claim. -/
theorem c2_unbuilt_search_returns_ok_empty :
    ((Database.new.add eDoc1).search 0 "GREEN").2 = some [] := by
  have hsc : searchCompute (Database.new.add eDoc1) "GREEN" = some [] := by
    simp [searchCompute, sortDesc, attachEntries, Database.new, Database.add]
  have hc : lookupStr (Database.new.add eDoc1).cached "GREEN" = none := rfl
  simp only [Database.search, hc, searchFresh, hsc]

/-- C3 counterexample: `tokenize_entries` on a valid document followed by a
top-level `Null` fails, but the table built for the first document stays
inserted — the prior index state (empty here) is not preserved. -/
theorem c3_partial_rebuild_persists :
    stC3.tokenize_entries.2 = some DbError.noTokens ∧
      stC3.tokenize_entries.1.tf ≠ stC3.tf := by
  constructor
  · decide
  · decide

/-- C3 amended: a failing rebuild reports the error for the whole call (there
is a malformed document; none is silently skipped), leaves `entries` and the
cache untouched, and leaves the term-frequency table of any id not belonging
to the successfully processed leading documents unchanged; the tables of
documents processed before the failure, however, remain inserted. -/
theorem c3_abort_keeps_processed_tables (st : Database) (err : DbError)
    (h : st.tokenize_entries.2 = some err) :
    st.tokenize_entries.1.entries = st.entries ∧
    st.tokenize_entries.1.cached = st.cached ∧
    (∃ e ∈ st.entries, entryOk e = false) ∧
    ∀ id : Nat, (∀ e ∈ st.entries.takeWhile entryOk, entryIdMod e ≠ some id) →
      lookupNat st.tokenize_entries.1.tf id = lookupNat st.tf id := by
  obtain ⟨hb, hframe⟩ := tokenizeGo_err st.entries st err h
  exact ⟨(tokenizeGo_frame st.entries st).1, (tokenizeGo_frame st.entries st).2, hb, hframe⟩

theorem c3_abort_witness :
    stC3.tokenize_entries.1.entries = stC3.entries ∧
    stC3.tokenize_entries.1.cached = stC3.cached ∧
    lookupNat stC3.tokenize_entries.1.tf 99 = lookupNat stC3.tf 99 := by
  have H := c3_abort_keeps_processed_tables stC3 DbError.noTokens (by decide)
  exact ⟨H.1, H.2.1, H.2.2.2 99 (by decide)⟩

/-- C10: whenever a top-level `Null` document is in the collection,
`tokenize_entries` fails for the whole call: the flattener returns no
fragment list at all for a top-level `Null` (unlike a nested null, which
merely contributes no fragments), and the indexer turns that into an error. -/
theorem c10_top_level_null_fails (st : Database) (h : Json.null ∈ st.entries) :
    st.tokenize_entries.2 ≠ none ∧ get_tokens Json.null = none :=
  ⟨tokenizeGo_null st.entries st h, rfl⟩

theorem c10_witness : stC10.tokenize_entries.2 ≠ none ∧ get_tokens Json.null = none :=
  c10_top_level_null_fails stC10 (List.mem_singleton.mpr rfl)

/-- C9: the flattener's production, case by case: an object yields the
concatenation of its values' fragments in order with keys ignored (any two
field lists with the same values yield the same fragments), an array the
concatenation over its elements in order, a string itself verbatim, a number
or boolean its rendered text, and a null child contributes nothing (in both
list and object position); being a pure function, the walk is deterministic. -/
theorem c9_flattener_cases :
    (∀ fields, get_tokens (.obj fields) = some (getTokensKVs fields)) ∧
    (∀ kv rest, getTokensKVs (kv :: rest) = ((get_tokens kv.2).getD []) ++ getTokensKVs rest) ∧
    (∀ fields fields2 : List (String × Json), fields.map Prod.snd = fields2.map Prod.snd →
        getTokensKVs fields = getTokensKVs fields2) ∧
    (∀ elems, get_tokens (.arr elems) = some (getTokensList elems)) ∧
    (∀ v rest, getTokensList (v :: rest) = ((get_tokens v).getD []) ++ getTokensList rest) ∧
    (∀ s, get_tokens (.str s) = some [s]) ∧
    (∀ n, get_tokens (.num n) = some [n.text]) ∧
    (∀ b, get_tokens (.bool b) = some [if b then "true" else "false"]) ∧
    (∀ rest, getTokensList (Json.null :: rest) = getTokensList rest) ∧
    (∀ k rest, getTokensKVs ((k, Json.null) :: rest) = getTokensKVs rest) := by
  refine ⟨fun _ => rfl, ?_, ?_, fun _ => rfl, fun _ _ => rfl, fun _ => rfl, fun _ => rfl,
    fun _ => rfl, ?_, ?_⟩
  · intro kv rest
    obtain ⟨k, v⟩ := kv
    rfl
  · intro fields fields2 hmap
    rw [getTokensKVs_eq_values, getTokensKVs_eq_values, hmap]
  · intro rest
    simp [getTokensList, get_tokens]
  · intro k rest
    simp [getTokensKVs, get_tokens]

theorem c9_witness :
    getTokensKVs [("a", Json.str "X")] = getTokensKVs [("b", Json.str "X")] :=
  c9_flattener_cases.2.2.1 [("a", Json.str "X")] [("b", Json.str "X")] rfl

/-- C6: cache behavior of `search`. A hit whose expiration is strictly in the
future returns the stored ranked list with the state untouched (no score is
recomputed). On a miss or an expired entry, `search` runs the fresh path,
and whenever the fresh path returns a result it unconditionally overwrites
the cache entry for the exact raw query string with the new result expiring
at `now + 60` seconds, leaving entries and index unchanged. -/
theorem c6_cache_semantics (st : Database) (now : Nat) (q : String) :
    (∀ c, lookupStr st.cached q = some c → now < c.expiration →
        st.search now q = (st, some c.result)) ∧
    ((∀ c, lookupStr st.cached q = some c → ¬ now < c.expiration) →
        st.search now q = searchFresh st now q) ∧
    (∀ st2 res, searchFresh st now q = (st2, some res) →
        st2.cached = insertStr st.cached q ⟨res, now + 60⟩ ∧
        st2.entries = st.entries ∧ st2.tf = st.tf) := by
  refine ⟨?_, ?_, ?_⟩
  · intro c hc hlt
    simp [Database.search, hc, hlt]
  · intro hmiss
    rcases hc : lookupStr st.cached q with _ | c
    · simp [Database.search, hc]
    · simp [Database.search, hc, hmiss c hc]
  · intro st2 res h
    rcases hsc : searchCompute st q with _ | pairs
    · simp only [searchFresh, hsc] at h
      exact absurd (congrArg Prod.snd h) (by simp)
    · simp only [searchFresh, hsc] at h
      have h1 : ({ st with cached := insertStr st.cached q ⟨pairs, now + 60⟩ } : Database) = st2 :=
        congrArg Prod.fst h
      have h2 : some pairs = some res := congrArg Prod.snd h
      injection h2 with h3
      subst h3
      rw [← h1]
      exact ⟨rfl, rfl, rfl⟩

theorem c6_witness : stW6.search 5 "Q" = (stW6, some []) :=
  (c6_cache_semantics stW6 5 "Q").1 ⟨[], 100⟩ rfl (by norm_num)

/-- C8: in every reachable state, a query that tokenizes to no tokens (the
empty string in particular) makes `search` succeed with the empty ranked
list: every document's relevance is the empty sum 0, and zero-scoring
documents are excluded by the `> 0` filter (the cache can only hold the
empty list for such a query in a reachable state, so a cache hit agrees). -/
theorem c8_zero_token_query_empty (st : Database) (h : Reach st) (now : Nat) (q : String)
    (hq : tokenizeQuery q = []) : (st.search now q).2 = some [] := by
  obtain ⟨h1, h2, h3, h4⟩ := reach_inv h
  rcases hc : lookupStr st.cached q with _ | c
  · simp only [Database.search, hc, searchFresh, searchCompute_empty st hq]
  · have hres : c.result = [] := h4 (q, c) (lookupStr_mem hc) hq
    simp only [Database.search, hc]
    by_cases hlt : now < c.expiration
    · simp [if_pos hlt, hres]
    · simp only [if_neg hlt, searchFresh, searchCompute_empty st hq]

theorem c8_witness : (Database.new.search 0 "").2 = some [] :=
  c8_zero_token_query_empty Database.new Reach.new 0 "" (by decide)

/-- C4 counterexample: the scorer has no zero-total guard. At an index entry
whose term-frequency table is empty (total token count 0), `get_tf` computes
the IEEE division 0/0, which is NaN — not the 0 the claim requires. -/
theorem c4_zero_total_gives_nan :
    stC4.get_tf 7 "A" = FVal.nan ∧ FVal.nan ≠ FVal.fin 0 :=
  ⟨rfl, fun h => FVal.noConfusion h⟩

/-- C4 amended: `get_tf` is the unguarded count/total division (0/0 gives NaN,
see the counterexample), but in every reachable state every indexed document
has total token count at least 1 (its id always contributes a token), every
candidate relevance is a finite nonnegative value, and the `> 0` filter
removes any NaN before sorting, so the comparator's `unwrap` cannot panic. -/
theorem c4_reachable_scores_safe (st : Database) (h : Reach st) (q : String) :
    (∀ p ∈ st.tf, 1 ≤ sumTbl p.2) ∧
    (∀ p ∈ st.tf, ∃ x : ℝ, relevance st (tokenizeQuery q) p.1 = .fin x ∧ 0 ≤ x) ∧
    sortDesc ((st.tf.map fun p => (p.1, relevance st (tokenizeQuery q) p.1)).filter
        fun p => fgt0 p.2) ≠ none := by
  have hinv := reach_inv h
  refine ⟨hinv.1, ?_, sortDesc_filter_ne_none _⟩
  intro p hp
  exact relevance_fin_nonneg hinv hp (tokenizeQuery q)

theorem c4_safety_witness :
    sortDesc ((stBuilt.tf.map fun p => (p.1, relevance stBuilt (tokenizeQuery "A") p.1)).filter
        fun p => fgt0 p.2) ≠ none :=
  (c4_reachable_scores_safe stBuilt
    (Reach.build _ (Reach.add _ _ (Reach.add _ _ Reach.new))) "A").2.2

/-- C5 counterexample: `stBuilt` is indexed with 2 documents; `eId3` is added
afterwards without a rebuild. The claim predicts `idf("A") = ln(N_build /
df) = ln (2 / 1) = ln 2`, but the code reads the live `entries.len()` and
yields `ln 3`. -/
theorem c5_idf_uses_live_count :
    (stBuilt.add eId3).get_idf "A" = FVal.fin (Real.log 3) ∧
      FVal.fin (Real.log 3) ≠ FVal.fin (Real.log 2) := by
  constructor
  · have hn : (stBuilt.add eId3).entries.length = 3 := by decide
    have hdf : Nat.max (dfCount (stBuilt.add eId3).tf "A") 1 = 1 := by decide
    simp only [Database.get_idf, hn, hdf]
    norm_num
  · intro h
    injection h with h2
    have hlt : Real.log 2 < Real.log 3 :=
      Real.log_lt_log (by norm_num) (by norm_num)
    linarith [hlt, h2.le, h2.ge]

/-- C5 amended: `idf(t) = ln(N / max(df, 1))` where `N` is the current
document count at the time of the call, not the count at index-build time:
adding a document immediately replaces `N` by `N + 1` while `df` (computed
from the unchanged index) stays the same. -/
theorem c5_idf_live_document_count (st : Database) (e : Json) (tok : String)
    (h : st.entries ≠ []) :
    st.get_idf tok =
      FVal.fin (Real.log ((st.entries.length : ℝ) /
        ((Nat.max (dfCount st.tf tok) 1 : Nat) : ℝ))) ∧
    (st.add e).get_idf tok =
      FVal.fin (Real.log (((st.entries.length + 1 : Nat) : ℝ) /
        ((Nat.max (dfCount st.tf tok) 1 : Nat) : ℝ))) := by
  have h0 : ¬ st.entries.length = 0 := by
    simpa [List.length_eq_zero] using h
  constructor
  · simp only [Database.get_idf]
    rw [if_neg h0]
  · have hlen : (st.add e).entries.length = st.entries.length + 1 := by
      simp [Database.add]
    have htf : (st.add e).tf = st.tf := rfl
    simp only [Database.get_idf, hlen, htf]
    rw [if_neg (by omega)]

theorem c5_live_count_witness :
    stBuilt.get_idf "A" =
      FVal.fin (Real.log ((stBuilt.entries.length : ℝ) /
        ((Nat.max (dfCount stBuilt.tf "A") 1 : Nat) : ℝ))) ∧
    (stBuilt.add eId3).get_idf "A" =
      FVal.fin (Real.log (((stBuilt.entries.length + 1 : Nat) : ℝ) /
        ((Nat.max (dfCount stBuilt.tf "A") 1 : Nat) : ℝ))) :=
  c5_idf_live_document_count stBuilt eId3 "A"
    (fun hcontra => absurd (congrArg List.length hcontra) (by decide))

def tblC1a : List (String × Nat) := [("1", 1), ("A", 1)]
def tblC1b : List (String × Nat) := [("2", 1), ("A", 1)]
def tblC1c : List (String × Nat) := [("3", 1), ("B", 1)]

/-- Three documents (titles A, A, B) indexed; the `tf` association list is
ordered 2, 1, 3. Rust `HashMap` iteration order is unspecified (and varies
between runs), and the model's list order stands for it, so this is a
legitimate representation of the indexed state built from
`eDoc1`, `eDoc2`, `eDoc3` — the tables are exactly what `tokenize_entries`
builds for them. -/
def stC1 : Database :=
  ⟨[eDoc1, eDoc2, eDoc3],
   [(2, ["2", "A"]), (1, ["1", "A"]), (3, ["3", "B"])],
   [(2, tblC1b), (1, tblC1a), (3, tblC1c)],
   []⟩

/-- C1: searching `stC1` for "A" gives documents 1 and 2 the same positive
score (each: tf 1/2 times idf ln(3/2)) and document 3 score 0 (filtered
out); the stable sort compares only scores, so the tied documents come back
in the index's iteration order — here 2 before 1, not ascending document-id
order as the claim requires. -/
theorem c1_equal_scores_not_id_ordered :
    ((stC1.search 0 "A").2).map (List.map Prod.fst) = some [eDoc2, eDoc1] := by
  have hq : tokenizeQuery "A" = ["A"] := by decide
  have htf2 : stC1.get_tf 2 "A" = .fin ((1 : ℝ) / 2) := by
    have hl : lookupNat stC1.tf 2 = some tblC1b := by decide
    have hc : countOf tblC1b "A" = 1 := by decide
    have hs : sumTbl tblC1b = 2 := by decide
    simp only [Database.get_tf, hl, Option.getD_some]
    rw [hc, hs]
    unfold fdivNat
    norm_num
  have htf1 : stC1.get_tf 1 "A" = .fin ((1 : ℝ) / 2) := by
    have hl : lookupNat stC1.tf 1 = some tblC1a := by decide
    have hc : countOf tblC1a "A" = 1 := by decide
    have hs : sumTbl tblC1a = 2 := by decide
    simp only [Database.get_tf, hl, Option.getD_some]
    rw [hc, hs]
    unfold fdivNat
    norm_num
  have htf3 : stC1.get_tf 3 "A" = .fin 0 := by
    have hl : lookupNat stC1.tf 3 = some tblC1c := by decide
    have hc : countOf tblC1c "A" = 0 := by decide
    have hs : sumTbl tblC1c = 2 := by decide
    simp only [Database.get_tf, hl, Option.getD_some]
    rw [hc, hs]
    unfold fdivNat
    norm_num
  have hidf : stC1.get_idf "A" = .fin (Real.log ((3 : ℝ) / 2)) := by
    have hn : stC1.entries.length = 3 := by decide
    have hdf : Nat.max (dfCount stC1.tf "A") 1 = 2 := by decide
    simp only [Database.get_idf, hn, hdf]
    norm_num
  have hrel2 : relevance stC1 ["A"] 2 = .fin (1 / 2 * Real.log ((3 : ℝ) / 2)) := by
    simp only [relevance, List.foldl_cons, List.foldl_nil, Database.calculate_tf_idf,
      htf2, hidf, fmul, fadd]
    norm_num
  have hrel1 : relevance stC1 ["A"] 1 = .fin (1 / 2 * Real.log ((3 : ℝ) / 2)) := by
    simp only [relevance, List.foldl_cons, List.foldl_nil, Database.calculate_tf_idf,
      htf1, hidf, fmul, fadd]
    norm_num
  have hrel3 : relevance stC1 ["A"] 3 = .fin 0 := by
    simp only [relevance, List.foldl_cons, List.foldl_nil, Database.calculate_tf_idf,
      htf3, hidf, fmul, fadd]
    norm_num
  have hpos : (0 : ℝ) < 1 / 2 * Real.log ((3 : ℝ) / 2) :=
    mul_pos (by norm_num) (Real.log_pos (by norm_num))
  have hcands : stC1.tf.map (fun p => (p.1, relevance stC1 ["A"] p.1)) =
      [(2, .fin (1 / 2 * Real.log ((3 : ℝ) / 2))),
       (1, .fin (1 / 2 * Real.log ((3 : ℝ) / 2))),
       (3, .fin 0)] := by
    show [(2, tblC1b), (1, tblC1a), (3, tblC1c)].map
        (fun p => (p.1, relevance stC1 ["A"] p.1)) = _
    simp [hrel2, hrel1, hrel3]
  have htrue : fgt0 (FVal.fin (1 / 2 * Real.log ((3 : ℝ) / 2))) = true := fgt0_fin_of_pos hpos
  have hfalse : fgt0 (FVal.fin (0 : ℝ)) = false := fgt0_fin_of_nonpos (le_refl _)
  have hfilter : ([(2, FVal.fin (1 / 2 * Real.log ((3 : ℝ) / 2))),
       (1, FVal.fin (1 / 2 * Real.log ((3 : ℝ) / 2))),
       (3, FVal.fin 0)].filter fun p => fgt0 p.2) =
      [(2, FVal.fin (1 / 2 * Real.log ((3 : ℝ) / 2))),
       (1, FVal.fin (1 / 2 * Real.log ((3 : ℝ) / 2)))] := by
    simp only [List.filter_cons, List.filter_nil, htrue, hfalse]
    simp
  have hsort : sortDesc [(2, FVal.fin (1 / 2 * Real.log ((3 : ℝ) / 2))),
       (1, FVal.fin (1 / 2 * Real.log ((3 : ℝ) / 2)))] =
      some [(2, FVal.fin (1 / 2 * Real.log ((3 : ℝ) / 2))),
       (1, FVal.fin (1 / 2 * Real.log ((3 : ℝ) / 2)))] := by
    simp [sortDesc, insertD, fcmp, cmp_self_eq_eq]
  have hfind2 : findEntry stC1.entries 2 = some eDoc2 := rfl
  have hfind1 : findEntry stC1.entries 1 = some eDoc1 := rfl
  have hattach : attachEntries stC1.entries
      [(2, FVal.fin (1 / 2 * Real.log ((3 : ℝ) / 2))),
       (1, FVal.fin (1 / 2 * Real.log ((3 : ℝ) / 2)))] =
      some [(eDoc2, FVal.fin (1 / 2 * Real.log ((3 : ℝ) / 2))),
            (eDoc1, FVal.fin (1 / 2 * Real.log ((3 : ℝ) / 2)))] := by
    simp [attachEntries, hfind2, hfind1]
  have hsc : searchCompute stC1 "A" =
      some [(eDoc2, FVal.fin (1 / 2 * Real.log ((3 : ℝ) / 2))),
            (eDoc1, FVal.fin (1 / 2 * Real.log ((3 : ℝ) / 2)))] := by
    simp only [searchCompute, hq, hcands, hfilter, hsort, hattach]
  have hc : lookupStr stC1.cached "A" = none := rfl
  simp only [Database.search, hc, searchFresh, hsc]
  simp
